import Mathlib

/-!
Verification of the `sorted-vec` bucket-list container.

The Rust sources (`src/bucket.rs`, `src/sorted_vec.rs`, `src/sorted_vec_iter.rs`)
are shallowly embedded below.  Elements are modelled as `Int` (any totally
ordered element type; `Int` keeps every definition executable and decidable).
`Vec<T>` becomes `List Int`, a `Bucket<T>` is its `data : Vec<T>` field, so a
bucket is a `List Int` and the container's bucket sequence is a
`List (List Int)`.  Rust panics (index out of bounds) are modelled by returning
`none` from the affected operation.
-/

/-- Models Rust's `Ord::cmp` on integers. -/
def cmpInt (a b : Int) : Ordering :=
  if a < b then .lt else if b < a then .gt else .eq

/-- The loop of Rust's `slice::binary_search_by`:
`size = right - left`, `mid = left + size / 2`; compare the probe at `mid`,
narrow to `[mid+1, right)` on `Less`, `[left, mid)` on `Greater`, return
`Ok(mid)` on `Equal`; `Err(left)` once the range is empty.
Out-of-range probes (never reached from `binarySearchBy`) read the default `d`.
The structural `fuel` argument only bounds the recursion: the range shrinks
strictly each step, so every call keeps `right - left ≤ fuel` and the
`fuel = 0` branch agrees with the loop's exit (`bsGo_fuel_irrel` below proves
the result is fuel-independent in that regime). -/
def bsGo {α : Type} (f : α → Ordering) (d : α) (xs : List α) :
    Nat → Nat → Nat → Except Nat Nat
  | 0, left, _ => .error left
  | fuel + 1, left, right =>
    if left < right then
      let mid := left + (right - left) / 2
      match f (xs.getD mid d) with
      | .lt => bsGo f d xs fuel (mid + 1) right
      | .gt => bsGo f d xs fuel left mid
      | .eq => .ok mid
    else
      .error left

/-- Models Rust's `slice::binary_search_by` over the whole slice:
`.ok idx` is `Ok(idx)` (a probe compared `Equal`), `.error idx` is `Err(idx)`
(the insertion point). -/
def binarySearchBy {α : Type} (f : α → Ordering) (d : α) (xs : List α) :
    Except Nat Nat :=
  bsGo f d xs xs.length 0 xs.length

/-- Models `AddResult` from `lib.rs`. -/
inductive AddResult where
  | added (idx : Nat)
  | duplicated (idx : Nat)
deriving DecidableEq, Repr

namespace Bucket

/-- Models `Bucket::add` (`bucket.rs`): binary-search the data for `item`
(`slice::binary_search`, i.e. probe `cmp` item); on `Ok` return `Duplicated`
and leave the data unchanged, on `Err idx` insert `item` at `idx`.
Returns the result together with the bucket's new data. -/
def add (data : List Int) (item : Int) : AddResult × List Int :=
  match binarySearchBy (fun x => cmpInt x item) 0 data with
  | .ok idx => (.duplicated idx, data)
  | .error idx => (.added idx, data.insertIdx idx item)

/-- Models `Bucket::split` (`bucket.rs`): `at = len / 2`; the original bucket
is truncated in place to its first `at` elements (`set_len(at)`), the new
bucket receives the `len - at` elements copied from offset `at`
(`copy_nonoverlapping`).  Returns (truncated original, new bucket). -/
def split (data : List Int) : List Int × List Int :=
  (data.take (data.length / 2), data.drop (data.length / 2))

/-- Models `Bucket::item_compare` (`bucket.rs`): `Equal` for an empty bucket;
otherwise `Greater` if `item` is below the first element, `Less` if the last
element is below `item`, else `Equal`. -/
def itemCompare (data : List Int) (item : Int) : Ordering :=
  match data.head?, data.getLast? with
  | some f, some l =>
      if item < f then .gt else if l < item then .lt else .eq
  | _, _ => .eq

end Bucket

/-- Models `SortedVec<T>` (`sorted_vec.rs`): the bucket sequence, the cached
`size`, and the configuration's `max_bucket_capacity` (the
`initial_set_capacity` hint only pre-allocates and has no semantics). -/
structure SortedVec where
  buckets : List (List Int)
  maxCap : Nat
  size : Nat
deriving DecidableEq, Repr

namespace SortedVec

/-- Models `SortedVec::new`: one empty seed bucket, `size = 0`.
`MaxBucketCapacity::new` panics unless `cap ≥ 1`; theorems carry that bound
as a hypothesis. -/
def new (cap : Nat) : SortedVec :=
  { buckets := [[]], maxCap := cap, size := 0 }

/-- Models `SortedVec::find_bucket_index`: binary-search the bucket sequence
with `Bucket::item_compare`; on `Err idx` clamp to
`min idx (buckets.len() - 1)` (`Nat` subtraction: `0 - 1 = 0`; the Rust
underflow for zero buckets leads to the index-out-of-bounds panic at the
caller's `buckets[idx]`, modelled there). -/
def find_bucket_index (sv : SortedVec) (item : Int) : Nat :=
  match binarySearchBy (fun b => Bucket.itemCompare b item) [] sv.buckets with
  | .ok idx => idx
  | .error idx => min idx (sv.buckets.length - 1)

/-- Models `SortedVec::insert`.  `none` models the panic of
`&mut self.buckets[idx]` when the bucket sequence is empty. -/
def insert (sv : SortedVec) (item : Int) : Option SortedVec :=
  let idx := find_bucket_index sv item
  match sv.buckets[idx]? with
  | none => none
  | some bucket =>
    match Bucket.add bucket item with
    | (.added _, newData) =>
        if newData.length > sv.maxCap then
          let pair := Bucket.split newData
          some { sv with
                 buckets := (sv.buckets.set idx pair.1).insertIdx (idx + 1) pair.2,
                 size := sv.size + 1 }
        else
          some { sv with buckets := sv.buckets.set idx newData, size := sv.size + 1 }
    | (.duplicated _, _) => some sv

/-- The loop of `SortedVec::at`: scan buckets, subtracting lengths until the
index falls inside a bucket. -/
def atGo : List (List Int) → Nat → Option Int
  | [], _ => none
  | b :: rest, idx => if idx < b.length then b[idx]? else atGo rest (idx - b.length)

/-- Models `SortedVec::at` (`at` is a Lean keyword, hence the name). -/
def atIdx (sv : SortedVec) (idx : Nat) : Option Int :=
  atGo sv.buckets idx

/-- Models `SortedVec::find_index`: outer `none` is the
`&self.buckets[bucket_idx]` panic on an empty bucket sequence;
`some none` is `None` (not found); `some (some (b, i))` is
`Some(FindResult { bucket_idx := b, item_idx := i })`. -/
def find_index (sv : SortedVec) (item : Int) : Option (Option (Nat × Nat)) :=
  let bidx := find_bucket_index sv item
  match sv.buckets[bidx]? with
  | none => none
  | some bucket =>
    match binarySearchBy (fun x => cmpInt x item) 0 bucket with
    | .ok i => some (some (bidx, i))
    | .error _ => some none

/-- Models `SortedVec::remove`: resolve via `find_index`; when found, erase
the element from its bucket, drop the bucket if it became empty, decrement
`size`.  Outer `none` models the panic propagated from `find_index`. -/
def remove (sv : SortedVec) (item : Int) : Option SortedVec :=
  match find_index sv item with
  | none => none
  | some none => some sv
  | some (some (bidx, iidx)) =>
    match sv.buckets[bidx]? with
    | none => none
    | some bucket =>
      let newData := bucket.eraseIdx iidx
      let newBuckets :=
        if newData.isEmpty then sv.buckets.eraseIdx bidx
        else sv.buckets.set bidx newData
      some { sv with buckets := newBuckets, size := sv.size - 1 }

/-- Models `SortedVec::slice`: push `at i` for `i` in `[start, end)` whenever
it is `Some`. -/
def slice (sv : SortedVec) (start stop : Nat) : List Int :=
  (List.range' start (stop - start)).filterMap sv.atIdx

/-- The elements yielded by `SortedVecIter` starting at cursor `i`:
`next` yields `at(index)` while `index < size` and a consumer stops at the
first `None`.  `fuel` bounds the recursion; `iterList` passes `sv.size`,
enough for the cursor to reach `size`. -/
def iterFrom (sv : SortedVec) : Nat → Nat → List Int
  | _, 0 => []
  | i, fuel + 1 =>
    if i < sv.size then
      match sv.atIdx i with
      | some x => x :: iterFrom sv (i + 1) fuel
      | none => []
    else []

/-- The full element sequence produced by `SortedVec::iter`
(`SortedVecIter::next` until exhaustion). -/
def iterList (sv : SortedVec) : List Int :=
  iterFrom sv 0 sv.size

/-- Folds `insert` over a list of values starting from `new cap`
(a finite sequence of inserts on a fresh container); `none` if any insert
panics. -/
def insertAll (cap : Nat) (vs : List Int) : Option SortedVec :=
  vs.foldlM (fun sv v => insert sv v) (new cap)

/-- Modelled from the spec: the source has no `first` accessor; §6 defines it
as a convenience accessor equivalent to `at(0)`. -/
def first (sv : SortedVec) : Option Int :=
  sv.atIdx 0

/-- Modelled from the spec: the source has no `last` accessor; §6 defines it
as a convenience accessor equivalent to `at(size - 1)`. -/
def last (sv : SortedVec) : Option Int :=
  sv.atIdx (sv.size - 1)

end SortedVec

/-! ## Binary search correctness -/

/-- Numeric rank of a comparison outcome along a sorted sequence:
`lt` probes come first, then `eq`, then `gt`. -/
def ordRank : Ordering → Nat
  | .lt => 0
  | .eq => 1
  | .gt => 2

/-- The probe function is monotone along the list: comparison outcomes appear
in the order `lt`, `eq`, `gt`. -/
def MonoProbe {α : Type} (f : α → Ordering) (d : α) (xs : List α) : Prop :=
  ∀ i j : Nat, i ≤ j → j < xs.length →
    ordRank (f (xs.getD i d)) ≤ ordRank (f (xs.getD j d))

theorem ordRank_le_zero {o : Ordering} (h : ordRank o ≤ 0) : o = .lt := by
  cases o <;> simp [ordRank] at h ⊢

theorem two_le_ordRank {o : Ordering} (h : 2 ≤ ordRank o) : o = .gt := by
  cases o <;> simp [ordRank] at h ⊢

/-- With enough fuel (`right - left ≤ fuel`), the result of `bsGo` does not
depend on the fuel: the fuel-exhaustion branch is dead. -/
theorem bsGo_fuel_irrel {α : Type} (f : α → Ordering) (d : α) (xs : List α) :
    ∀ fuel fuel' left right, right - left ≤ fuel → right - left ≤ fuel' →
      bsGo f d xs fuel left right = bsGo f d xs fuel' left right := by
  intro fuel
  induction fuel with
  | zero =>
    intro fuel' left right h h'
    cases fuel' with
    | zero => rfl
    | succ m =>
      have : ¬ left < right := by omega
      simp [bsGo, this]
  | succ n ih =>
    intro fuel' left right h h'
    cases fuel' with
    | zero =>
      have : ¬ left < right := by omega
      simp [bsGo, this]
    | succ m =>
      by_cases hlr : left < right
      · have hmid1 : left ≤ left + (right - left) / 2 := by omega
        have hmid2 : left + (right - left) / 2 < right := by omega
        simp only [bsGo, if_pos hlr]
        cases f (xs.getD (left + (right - left) / 2) d) with
        | lt => exact ih m (left + (right - left) / 2 + 1) right (by omega) (by omega)
        | gt => exact ih m left (left + (right - left) / 2) (by omega) (by omega)
        | eq => rfl
      · simp [bsGo, hlr]

/-- If `bsGo` answers `Ok m`, the probe at `m` compared `Equal` and
`m` lies in the searched range. -/
theorem bsGo_ok {α : Type} (f : α → Ordering) (d : α) (xs : List α) :
    ∀ fuel left right m, right ≤ xs.length → bsGo f d xs fuel left right = .ok m →
      left ≤ m ∧ m < right ∧ f (xs.getD m d) = .eq := by
  intro fuel
  induction fuel with
  | zero => intro l r m _ h; simp [bsGo] at h
  | succ n ih =>
    intro l r m hr h
    by_cases hlr : l < r
    · simp only [bsGo, if_pos hlr] at h
      have hmid1 : l ≤ l + (r - l) / 2 := by omega
      have hmid2 : l + (r - l) / 2 < r := by omega
      cases hf : f (xs.getD (l + (r - l) / 2) d) with
      | lt =>
        rw [hf] at h
        obtain ⟨h1, h2, h3⟩ := ih (l + (r - l) / 2 + 1) r m hr h
        exact ⟨by omega, h2, h3⟩
      | gt =>
        rw [hf] at h
        obtain ⟨h1, h2, h3⟩ := ih l (l + (r - l) / 2) m (by omega) h
        exact ⟨h1, by omega, h3⟩
      | eq =>
        rw [hf] at h
        cases h
        exact ⟨hmid1, hmid2, hf⟩
    · simp [bsGo, hlr] at h

/-- If `bsGo` answers `Err i` on a monotone probe, every index below `i`
compares `Less` and every index from `i` up to `right` compares `Greater`. -/
theorem bsGo_err {α : Type} (f : α → Ordering) (d : α) (xs : List α)
    (mono : MonoProbe f d xs) :
    ∀ fuel left right i, right - left ≤ fuel → left ≤ right → right ≤ xs.length →
      bsGo f d xs fuel left right = .error i →
      left ≤ i ∧ i ≤ right ∧
        (∀ j, left ≤ j → j < i → f (xs.getD j d) = .lt) ∧
        (∀ j, i ≤ j → j < right → f (xs.getD j d) = .gt) := by
  intro fuel
  induction fuel with
  | zero =>
    intro l r i hfuel hlr hrlen h
    simp [bsGo] at h
    subst h
    exact ⟨le_refl _, hlr, fun j h1 h2 => by omega, fun j h1 h2 => by omega⟩
  | succ n ih =>
    intro l r i hfuel hlr hrlen h
    by_cases hlr' : l < r
    · simp only [bsGo, if_pos hlr'] at h
      have hmid1 : l ≤ l + (r - l) / 2 := by omega
      have hmid2 : l + (r - l) / 2 < r := by omega
      cases hf : f (xs.getD (l + (r - l) / 2) d) with
      | lt =>
        rw [hf] at h
        obtain ⟨h1, h2, h3, h4⟩ := ih (l + (r - l) / 2 + 1) r i (by omega) (by omega) hrlen h
        refine ⟨by omega, h2, fun j hj1 hj2 => ?_, h4⟩
        by_cases hjm : j ≤ l + (r - l) / 2
        · have := mono j (l + (r - l) / 2) hjm (by omega)
          rw [hf] at this
          exact ordRank_le_zero (by simpa [ordRank] using this)
        · exact h3 j (by omega) hj2
      | gt =>
        rw [hf] at h
        obtain ⟨h1, h2, h3, h4⟩ := ih l (l + (r - l) / 2) i (by omega) (by omega) (by omega) h
        refine ⟨h1, by omega, h3, fun j hj1 hj2 => ?_⟩
        by_cases hjm : j < l + (r - l) / 2
        · exact h4 j hj1 hjm
        · have := mono (l + (r - l) / 2) j (by omega) (by omega)
          rw [hf] at this
          exact two_le_ordRank (by simpa [ordRank] using this)
      | eq => rw [hf] at h; cases h
    · simp [bsGo, hlr'] at h
      subst h
      exact ⟨le_refl _, hlr, fun j h1 h2 => by omega, fun j h1 h2 => by omega⟩

/-- `binarySearchBy` `Ok` case, phrased with `getElem`. -/
theorem binarySearchBy_ok {α : Type} {f : α → Ordering} {d : α} {xs : List α} {m : Nat}
    (h : binarySearchBy f d xs = .ok m) :
    ∃ (hm : m < xs.length), f xs[m] = .eq := by
  obtain ⟨-, h2, h3⟩ := bsGo_ok f d xs xs.length 0 xs.length m (le_refl _) h
  exact ⟨h2, by rwa [List.getD_eq_getElem xs d h2] at h3⟩

/-- `binarySearchBy` `Err` case on a monotone probe: `i` is the boundary
between the `Less` prefix and the `Greater` suffix. -/
theorem binarySearchBy_err {α : Type} {f : α → Ordering} {d : α} {xs : List α} {i : Nat}
    (mono : MonoProbe f d xs) (h : binarySearchBy f d xs = .error i) :
    i ≤ xs.length ∧
      (∀ j (hj : j < xs.length), j < i → f xs[j] = .lt) ∧
      (∀ j (hj : j < xs.length), i ≤ j → f xs[j] = .gt) := by
  obtain ⟨-, h2, h3, h4⟩ :=
    bsGo_err f d xs mono xs.length 0 xs.length i (by omega) (by omega) (le_refl _) h
  refine ⟨h2, fun j hj hji => ?_, fun j hj hij => ?_⟩
  · have := h3 j (by omega) hji
    rwa [List.getD_eq_getElem xs d hj] at this
  · have := h4 j hij hj
    rwa [List.getD_eq_getElem xs d hj] at this

/-! ## Sorted-list helpers -/

theorem getD_eq_getElem' {α : Type} (l : List α) (d : α) {n : Nat} (hn : n < l.length) :
    l.getD n d = l[n] :=
  List.getD_eq_getElem l d hn

theorem mem_take_idx {α : Type} {l : List α} {n : Nat} {A : α} (h : A ∈ l.take n) :
    ∃ k, k < n ∧ ∃ (hk : k < l.length), l[k] = A := by
  obtain ⟨k, hk, hEq⟩ := List.mem_iff_getElem.mp h
  have hk' : k < n := by
    have := hk
    simp [List.length_take] at this
    omega
  have hkl : k < l.length := by
    have := hk
    simp [List.length_take] at this
    omega
  exact ⟨k, hk', hkl, by rw [← hEq]; exact (List.getElem_take l).symm ▸ rfl⟩

theorem mem_drop_idx {α : Type} {l : List α} {n : Nat} {A : α} (h : A ∈ l.drop n) :
    ∃ k, n ≤ k ∧ ∃ (hk : k < l.length), l[k] = A := by
  obtain ⟨k, hk, hEq⟩ := List.mem_iff_getElem.mp h
  have hkl : n + k < l.length := by
    have := hk
    simp [List.length_drop] at this
    omega
  refine ⟨n + k, by omega, hkl, ?_⟩
  rw [← hEq]
  exact (List.getElem_drop l).symm

theorem sorted_head_le {b : List Int} (hs : b.Sorted (· < ·)) {h y : Int}
    (hh : b.head? = some h) (hy : y ∈ b) : h ≤ y := by
  cases b with
  | nil => cases hh
  | cons a tl =>
    cases hh
    rcases List.mem_cons.mp hy with rfl | hmem
    · exact le_refl _
    · exact le_of_lt (List.rel_of_sorted_cons hs _ hmem)

theorem sorted_le_getLast {b : List Int} (hs : b.Sorted (· < ·)) {l y : Int}
    (hl : b.getLast? = some l) (hy : y ∈ b) : y ≤ l := by
  induction b with
  | nil => cases hl
  | cons a tl ih =>
    cases tl with
    | nil =>
      simp [List.getLast?] at hl
      rcases List.mem_cons.mp hy with rfl | hmem
      · omega
      · cases hmem
    | cons c tl' =>
      rw [List.getLast?_cons_cons] at hl
      have hltl : l ∈ c :: tl' :=
        List.mem_of_mem_getLast? (by rw [hl]; rfl)
      rcases List.mem_cons.mp hy with rfl | hmem
      · exact le_of_lt (List.rel_of_sorted_cons hs _ hltl)
      · exact ih hs.of_cons hl hmem

theorem cmpInt_eq_iff {a b : Int} : cmpInt a b = .eq ↔ a = b := by
  unfold cmpInt
  split_ifs <;> simp <;> omega

theorem cmpInt_lt_iff {a b : Int} : cmpInt a b = .lt ↔ a < b := by
  unfold cmpInt
  split_ifs <;> simp <;> omega

theorem cmpInt_gt_iff {a b : Int} : cmpInt a b = .gt ↔ b < a := by
  unfold cmpInt
  split_ifs <;> simp <;> omega

theorem cmpInt_rank_mono {a b item : Int} (hab : a ≤ b) :
    ordRank (cmpInt a item) ≤ ordRank (cmpInt b item) := by
  unfold cmpInt
  split_ifs <;> simp [ordRank] <;> omega

/-- On a strictly sorted list, the probe `fun x => cmpInt x item` is monotone. -/
theorem monoProbe_cmpInt {data : List Int} (hs : data.Sorted (· < ·)) (item : Int) :
    MonoProbe (fun x => cmpInt x item) 0 data := by
  intro i j hij hj
  have hi : i < data.length := lt_of_le_of_lt hij hj
  rw [getD_eq_getElem' data 0 hi, getD_eq_getElem' data 0 hj]
  rcases Nat.eq_or_lt_of_le hij with rfl | hlt
  · exact le_refl _
  · exact cmpInt_rank_mono
      (le_of_lt (List.pairwise_iff_getElem.mp hs i j hi hj hlt))

/-! ## `Bucket.add` characterization -/

/-- Adding a value already present in a strictly sorted bucket is a no-op
reported as `Duplicated`. -/
theorem add_of_mem {data : List Int} {x : Int} (hs : data.Sorted (· < ·))
    (hm : x ∈ data) : ∃ i, Bucket.add data x = (.duplicated i, data) := by
  unfold Bucket.add
  cases hbs : binarySearchBy (fun y => cmpInt y x) 0 data with
  | ok i => exact ⟨i, rfl⟩
  | error i =>
    exfalso
    obtain ⟨k, hk, hkx⟩ := List.mem_iff_getElem.mp hm
    obtain ⟨hi, hlo, hhi⟩ := binarySearchBy_err (monoProbe_cmpInt hs x) hbs
    by_cases hki : k < i
    · have := cmpInt_lt_iff.mp (hlo k hk hki)
      omega
    · have := cmpInt_gt_iff.mp (hhi k hk (by omega))
      omega

/-- Inserting a value at a position below which everything is smaller and from
which everything is larger keeps the list strictly sorted. -/
theorem sorted_insertIdx {x : Int} :
    ∀ (data : List Int) (i : Nat), data.Sorted (· < ·) → i ≤ data.length →
      (∀ j (hj : j < data.length), j < i → data[j] < x) →
      (∀ j (hj : j < data.length), i ≤ j → x < data[j]) →
      (data.insertIdx i x).Sorted (· < ·)
  | [], i, _, hi, _, _ => by
    have hi0 : i = 0 := by simpa using hi
    subst hi0
    simp
  | a :: tl, 0, hs, _, _, hgt => by
    rw [List.insertIdx_zero, List.sorted_cons]
    refine ⟨fun b hb => ?_, hs⟩
    rcases List.mem_cons.mp hb with rfl | hmem
    · exact hgt 0 (by simp) (by omega)
    · exact lt_trans (hgt 0 (by simp) (by omega)) (List.rel_of_sorted_cons hs _ hmem)
  | a :: tl, i + 1, hs, hi, hlt, hgt => by
    rw [List.insertIdx_succ_cons, List.sorted_cons]
    constructor
    · intro b hb
      rcases (List.mem_insertIdx (by simpa using Nat.le_of_succ_le_succ hi)).mp hb with
        rfl | hmem
      · exact hlt 0 (by simp) (by omega)
      · exact List.rel_of_sorted_cons hs _ hmem
    · refine sorted_insertIdx tl i hs.of_cons (by simpa using hi)
        (fun j hj hji => ?_) (fun j hj hij => ?_)
      · have := hlt (j + 1) (by simpa using hj) (by omega)
        simpa using this
      · have := hgt (j + 1) (by simpa using hj) (by omega)
        simpa using this

/-- Adding a value absent from a strictly sorted bucket inserts it at its
sorted position: the result is strictly sorted, one longer, and holds exactly
the old elements plus the new value.  Everything below the returned index is
smaller than the value; it and everything above is larger. -/
theorem add_of_not_mem {data : List Int} {x : Int} (hs : data.Sorted (· < ·))
    (hm : x ∉ data) :
    ∃ i nd, Bucket.add data x = (.added i, nd) ∧ nd = data.insertIdx i x ∧
      i ≤ data.length ∧ nd.Sorted (· < ·) ∧ nd.length = data.length + 1 ∧
      (∀ y, y ∈ nd ↔ y = x ∨ y ∈ data) := by
  unfold Bucket.add
  cases hbs : binarySearchBy (fun y => cmpInt y x) 0 data with
  | ok m =>
    exfalso
    obtain ⟨hm', hEq⟩ := binarySearchBy_ok hbs
    exact hm (cmpInt_eq_iff.mp hEq ▸ List.getElem_mem hm')
  | error i =>
    obtain ⟨hi, hlo, hhi⟩ := binarySearchBy_err (monoProbe_cmpInt hs x) hbs
    refine ⟨i, data.insertIdx i x, rfl, rfl, hi,
      sorted_insertIdx data i hs hi
        (fun j hj hji => cmpInt_lt_iff.mp (hlo j hj hji))
        (fun j hj hij => cmpInt_gt_iff.mp (hhi j hj hij)),
      List.length_insertIdx i data hi,
      fun y => List.mem_insertIdx hi⟩

/-- In a strictly sorted list, the first half is elementwise below the second
half. -/
theorem sorted_take_lt_drop {nd : List Int} (hs : nd.Sorted (· < ·)) (h : Nat) :
    ∀ a ∈ nd.take h, ∀ b ∈ nd.drop h, a < b := by
  intro a ha b hb
  obtain ⟨p, hp, hpl, hpa⟩ := mem_take_idx ha
  obtain ⟨q, hq, hql, hqb⟩ := mem_drop_idx hb
  subst hpa hqb
  exact List.pairwise_iff_getElem.mp hs p q hpl hql (by omega)

/-- Erasing position `p` from a duplicate-free list removes exactly the
element at `p`. -/
theorem mem_eraseIdx_of_nodup :
    ∀ (b : List Int) (p : Nat) (hp : p < b.length), b.Nodup →
      ∀ y, y ∈ b.eraseIdx p ↔ (y ∈ b ∧ y ≠ b[p])
  | [], p, hp, _, y => by simp at hp
  | a :: tl, 0, _, hnd, y => by
    simp only [List.eraseIdx_zero, List.tail_cons, List.mem_cons, List.getElem_cons_zero]
    constructor
    · intro hy
      have : a ∉ tl := (List.nodup_cons.mp hnd).1
      exact ⟨Or.inr hy, fun hya => this (hya ▸ hy)⟩
    · rintro ⟨rfl | hy, hne⟩
      · exact absurd rfl hne
      · exact hy
  | a :: tl, p + 1, hp, hnd, y => by
    have hp' : p < tl.length := by simpa using hp
    simp only [List.eraseIdx_cons_succ, List.mem_cons, List.getElem_cons_succ]
    have ih := mem_eraseIdx_of_nodup tl p hp' (List.nodup_cons.mp hnd).2 y
    constructor
    · rintro (rfl | hy)
      · exact ⟨Or.inl rfl,
          fun hEq => (List.nodup_cons.mp hnd).1 (hEq ▸ List.getElem_mem hp')⟩
      · obtain ⟨h1, h2⟩ := ih.mp hy
        exact ⟨Or.inr h1, h2⟩
    · rintro ⟨rfl | hy, hne⟩
      · exact Or.inl rfl
      · exact Or.inr (ih.mpr ⟨hy, hne⟩)

/-! ## `Bucket.item_compare` and bucket routing -/

/-- One bucket strictly precedes another: every element of the first is below
every element of the second. -/
def bucketLt (a b : List Int) : Prop :=
  ∀ x ∈ a, ∀ y ∈ b, x < y

/-- The container invariant on bucket order: value ranges strictly ascend. -/
def BucketsOrdered (bs : List (List Int)) : Prop :=
  List.Pairwise bucketLt bs

theorem itemCompare_ne_nil {b : List Int} (hb : b ≠ []) (item : Int) :
    Bucket.itemCompare b item =
      if item < b.head hb then .gt
      else if b.getLast hb < item then .lt else .eq := by
  cases b with
  | nil => exact absurd rfl hb
  | cons a tl =>
    rw [Bucket.itemCompare, List.head?_cons, List.getLast?_eq_getLast_of_ne_nil hb]
    rfl

theorem lt_of_itemCompare_lt {b : List Int} (hs : b.Sorted (· < ·)) {item : Int}
    (h : Bucket.itemCompare b item = .lt) : ∀ y ∈ b, y < item := by
  intro y hy
  have hb : b ≠ [] := by rintro rfl; simp [Bucket.itemCompare] at h
  rw [itemCompare_ne_nil hb item] at h
  split_ifs at h with h1 h2
  exact lt_of_le_of_lt
    (sorted_le_getLast hs (List.getLast?_eq_getLast_of_ne_nil hb) hy) h2

theorem gt_of_itemCompare_gt {b : List Int} (hs : b.Sorted (· < ·)) {item : Int}
    (h : Bucket.itemCompare b item = .gt) : ∀ y ∈ b, item < y := by
  intro y hy
  have hb : b ≠ [] := by rintro rfl; simp [Bucket.itemCompare] at h
  rw [itemCompare_ne_nil hb item] at h
  split_ifs at h with h1
  · exact lt_of_lt_of_le h1 (sorted_head_le hs (List.head?_eq_head hb) hy)

theorem itemCompare_eq_bounds {b : List Int} (hb : b ≠ []) {item : Int}
    (h : Bucket.itemCompare b item = .eq) :
    b.head hb ≤ item ∧ item ≤ b.getLast hb := by
  rw [itemCompare_ne_nil hb item] at h
  split_ifs at h with h1 h2
  omega

theorem itemCompare_eq_of_mem {b : List Int} (hs : b.Sorted (· < ·)) {item : Int}
    (hm : item ∈ b) : Bucket.itemCompare b item = .eq := by
  have hb : b ≠ [] := List.ne_nil_of_mem hm
  rw [itemCompare_ne_nil hb item]
  have h1 : b.head hb ≤ item := sorted_head_le hs (List.head?_eq_head hb) hm
  have h2 : item ≤ b.getLast hb :=
    sorted_le_getLast hs (List.getLast?_eq_getLast_of_ne_nil hb) hm
  split_ifs with ha hc
  · omega
  · omega
  · rfl

/-- On a nonempty, sorted, range-ordered bucket sequence, `item_compare`
against a fixed value is a monotone probe. -/
theorem monoProbe_itemCompare {bs : List (List Int)}
    (hs : ∀ b ∈ bs, b.Sorted (· < ·)) (hord : BucketsOrdered bs)
    (hne : ∀ b ∈ bs, b ≠ []) (item : Int) :
    MonoProbe (fun b => Bucket.itemCompare b item) [] bs := by
  intro i j hij hj
  have hi : i < bs.length := lt_of_le_of_lt hij hj
  rw [getD_eq_getElem' bs [] hi, getD_eq_getElem' bs [] hj]
  rcases Nat.eq_or_lt_of_le hij with rfl | hlt
  · exact le_refl _
  have hrel : bucketLt bs[i] bs[j] := List.pairwise_iff_getElem.mp hord i j hi hj hlt
  have hnei : bs[i] ≠ [] := hne _ (List.getElem_mem hi)
  have hnej : bs[j] ≠ [] := hne _ (List.getElem_mem hj)
  have hsi : bs[i].Sorted (· < ·) := hs _ (List.getElem_mem hi)
  have hsj : bs[j].Sorted (· < ·) := hs _ (List.getElem_mem hj)
  have key1 : Bucket.itemCompare bs[i] item = .gt →
      Bucket.itemCompare bs[j] item = .gt := by
    intro h
    have h1 : ∀ y ∈ bs[i], item < y := gt_of_itemCompare_gt hsi h
    rw [itemCompare_ne_nil hnej item]
    have h2 : item < bs[j].head hnej := by
      calc item < bs[i].head hnei := h1 _ (List.head_mem hnei)
        _ < bs[j].head hnej := hrel _ (List.head_mem hnei) _ (List.head_mem hnej)
    rw [if_pos h2]
  have key2 : Bucket.itemCompare bs[j] item = .lt →
      Bucket.itemCompare bs[i] item = .lt := by
    intro h
    have h1 : ∀ y ∈ bs[j], y < item := lt_of_itemCompare_lt hsj h
    rw [itemCompare_ne_nil hnei item]
    have h2 : bs[i].getLast hnei < item :=
      lt_trans (hrel _ (List.getLast_mem hnei) _ (List.getLast_mem hnej))
        (h1 _ (List.getLast_mem hnej))
    have h3 : bs[i].head hnei ≤ bs[i].getLast hnei :=
      sorted_head_le hsi (List.head?_eq_head hnei) (List.getLast_mem hnei)
    rw [if_neg (by omega), if_pos h2]
  cases h1 : Bucket.itemCompare bs[i] item <;>
    cases h2 : Bucket.itemCompare bs[j] item <;>
      simp only [h1, h2, ordRank] <;>
        first
          | omega
          | exact absurd (key2 h2) (by simp [h1])
          | exact absurd (key1 h1) (by simp [h2])

/-- Where `find_bucket_index` routes on a nonempty, well-ordered container:
the chosen index is valid, every element of an earlier bucket is below the
searched value, every element of a later bucket is above it, and a bucket
containing the value is exactly the chosen one. -/
theorem find_bucket_routes {sv : SortedVec} {x : Int}
    (hs : ∀ b ∈ sv.buckets, b.Sorted (· < ·)) (hord : BucketsOrdered sv.buckets)
    (hne : ∀ b ∈ sv.buckets, b ≠ []) (hb : sv.buckets ≠ []) :
    sv.find_bucket_index x < sv.buckets.length ∧
      (∀ k (hk : k < sv.buckets.length), k < sv.find_bucket_index x →
        ∀ y ∈ sv.buckets[k], y < x) ∧
      (∀ k (hk : k < sv.buckets.length), sv.find_bucket_index x < k →
        ∀ y ∈ sv.buckets[k], x < y) ∧
      (∀ k (hk : k < sv.buckets.length), x ∈ sv.buckets[k] →
        sv.find_bucket_index x = k) := by
  have hlen : 0 < sv.buckets.length := List.length_pos.mpr hb
  have main : sv.find_bucket_index x < sv.buckets.length ∧
      (∀ k (hk : k < sv.buckets.length), k < sv.find_bucket_index x →
        ∀ y ∈ sv.buckets[k], y < x) ∧
      (∀ k (hk : k < sv.buckets.length), sv.find_bucket_index x < k →
        ∀ y ∈ sv.buckets[k], x < y) := by
    cases hbs : binarySearchBy (fun b => Bucket.itemCompare b x) [] sv.buckets with
    | ok m =>
      simp only [SortedVec.find_bucket_index, hbs]
      obtain ⟨hm, hEq⟩ := binarySearchBy_ok hbs
      have hnem : sv.buckets[m] ≠ [] := hne _ (List.getElem_mem hm)
      obtain ⟨hhd, hlast⟩ := itemCompare_eq_bounds hnem hEq
      refine ⟨hm, ?_, ?_⟩
      · intro k hk hkm y hy
        have hrel : bucketLt sv.buckets[k] sv.buckets[m] :=
          List.pairwise_iff_getElem.mp hord k m hk hm hkm
        exact lt_of_lt_of_le (hrel y hy _ (List.head_mem hnem)) hhd
      · intro k hk hmk y hy
        have hrel : bucketLt sv.buckets[m] sv.buckets[k] :=
          List.pairwise_iff_getElem.mp hord m k hm hk hmk
        exact lt_of_le_of_lt hlast (hrel _ (List.getLast_mem hnem) y hy)
    | error i =>
      simp only [SortedVec.find_bucket_index, hbs]
      obtain ⟨hi, hlo, hhi⟩ :=
        binarySearchBy_err (monoProbe_itemCompare hs hord hne x) hbs
      by_cases hil : i < sv.buckets.length
      · have hidx : min i (sv.buckets.length - 1) = i := by omega
        rw [hidx]
        refine ⟨hil, ?_, ?_⟩
        · intro k hk hki y hy
          exact lt_of_itemCompare_lt (hs _ (List.getElem_mem hk)) (hlo k hk hki) y hy
        · intro k hk hik y hy
          exact gt_of_itemCompare_gt (hs _ (List.getElem_mem hk))
            (hhi k hk (by omega)) y hy
      · have hidx : min i (sv.buckets.length - 1) = sv.buckets.length - 1 := by
          omega
        rw [hidx]
        refine ⟨by omega, ?_, ?_⟩
        · intro k hk hki y hy
          exact lt_of_itemCompare_lt (hs _ (List.getElem_mem hk))
            (hlo k hk (by omega)) y hy
        · intro k hk hik y hy
          omega
  obtain ⟨h1, h2, h3⟩ := main
  refine ⟨h1, h2, h3, fun k hk hmem => ?_⟩
  rcases lt_trichotomy (sv.find_bucket_index x) k with hc | hc | hc
  · exact absurd (h3 k hk hc x hmem) (lt_irrefl x)
  · exact hc
  · exact absurd (h2 k hk hc x hmem) (lt_irrefl x)

/-! ## The container invariant -/

/-- The structural invariant of `SortedVec`: each bucket strictly sorted,
bucket ranges strictly ascending, the cached `size` equal to the sum of the
bucket lengths, buckets nonempty apart from the initial `[[]]` seed, and all
bucket lengths within the configured capacity. -/
structure SVInv (sv : SortedVec) : Prop where
  sorted : ∀ b ∈ sv.buckets, b.Sorted (· < ·)
  ordered : BucketsOrdered sv.buckets
  sizeEq : sv.size = (sv.buckets.map List.length).sum
  seed : sv.buckets = [[]] ∨ ∀ b ∈ sv.buckets, b ≠ []
  capBound : ∀ b ∈ sv.buckets, b.length ≤ sv.maxCap
  capPos : 1 ≤ sv.maxCap

theorem inv_new {cap : Nat} (hc : 1 ≤ cap) : SVInv (SortedVec.new cap) := by
  refine ⟨?_, ?_, ?_, Or.inl rfl, ?_, hc⟩ <;> simp [SortedVec.new, BucketsOrdered]

theorem bucket_decomp {α : Type} (bs : List α) (idx : Nat) (h : idx < bs.length) :
    bs = bs.take idx ++ bs[idx] :: bs.drop (idx + 1) := by
  conv_lhs => rw [← List.take_append_drop idx bs]
  rw [List.drop_eq_getElem_cons h]

theorem set_insertIdx_decomp {α : Type} :
    ∀ (bs : List α) (idx : Nat), idx < bs.length → ∀ (t u : α),
      (bs.set idx t).insertIdx (idx + 1) u =
        bs.take idx ++ t :: u :: bs.drop (idx + 1)
  | [], idx, h, t, u => by simp at h
  | a :: tl, 0, _, t, u => by
    simp [List.insertIdx_succ_cons]
  | a :: tl, idx + 1, h, t, u => by
    simp only [List.set_cons_succ, List.insertIdx_succ_cons, List.take_succ_cons,
      List.drop_succ_cons, List.cons_append]
    rw [set_insertIdx_decomp tl idx (by simpa using h) t u]

/-- Replacing the bucket at a routed position with new buckets whose elements
come from the old bucket or equal the routed value preserves per-bucket
sortedness and the range order. -/
theorem replace_ordered (NEW : List (List Int)) (x : Int)
    {P S : List (List Int)} {old : List Int}
    (hs : ∀ b ∈ P ++ old :: S, b.Sorted (· < ·))
    (hord : BucketsOrdered (P ++ old :: S))
    (hNs : ∀ b ∈ NEW, b.Sorted (· < ·))
    (hNord : BucketsOrdered NEW)
    (hNsub : ∀ b ∈ NEW, ∀ y ∈ b, y = x ∨ y ∈ old)
    (hlow : ∀ b ∈ P, ∀ a ∈ b, a < x)
    (hhigh : ∀ b ∈ S, ∀ a ∈ b, x < a) :
    (∀ b ∈ P ++ NEW ++ S, b.Sorted (· < ·)) ∧ BucketsOrdered (P ++ NEW ++ S) := by
  rw [BucketsOrdered, List.pairwise_append] at hord
  obtain ⟨hP, holdS, hcross⟩ := hord
  rw [List.pairwise_cons] at holdS
  obtain ⟨holdS, hS⟩ := holdS
  have c1 : ∀ a ∈ P, bucketLt a old := fun a ha =>
    hcross a ha old (List.mem_cons_self _ _)
  have c2 : ∀ a ∈ P, ∀ b ∈ S, bucketLt a b := fun a ha b hbm =>
    hcross a ha b (List.mem_cons_of_mem _ hbm)
  constructor
  · intro b hbm
    rcases List.mem_append.mp hbm with hbm | hbm
    · rcases List.mem_append.mp hbm with hbm | hbm
      · exact hs b (List.mem_append.mpr (Or.inl hbm))
      · exact hNs b hbm
    · exact hs b (List.mem_append.mpr (Or.inr (List.mem_cons_of_mem _ hbm)))
  · rw [List.append_assoc, BucketsOrdered, List.pairwise_append]
    refine ⟨hP, ?_, ?_⟩
    · rw [List.pairwise_append]
      refine ⟨hNord, hS, ?_⟩
      intro b hbm s hsm y hy z hz
      rcases hNsub b hbm y hy with rfl | hyo
      · exact hhigh s hsm z hz
      · exact holdS s hsm y hyo z hz
    · intro a ha b hbm y hy z hz
      rcases List.mem_append.mp hbm with hbm | hbm
      · rcases hNsub b hbm z hz with rfl | hzo
        · exact hlow a ha y hy
        · exact c1 a ha y hy z hzo
      · exact c2 a ha b hbm y hy z hz

set_option maxHeartbeats 1000000 in
/-- Full characterization of `insert` on an invariant-satisfying container
that still has at least one bucket: it succeeds, preserves the invariant and
the capacity, keeps at least one bucket, its elements are the old ones plus
the inserted value, and inserting a value already present returns the
container unchanged. -/
theorem insert_spec {sv : SortedVec} (hI : SVInv sv) (hb : sv.buckets ≠ []) (x : Int) :
    ∃ sv', sv.insert x = some sv' ∧ SVInv sv' ∧ sv'.maxCap = sv.maxCap ∧
      sv'.buckets ≠ [] ∧
      (∀ y, y ∈ sv'.buckets.flatten ↔ y = x ∨ y ∈ sv.buckets.flatten) ∧
      (x ∈ sv.buckets.flatten → sv' = sv) := by
  rcases hI.seed with hseed | hne
  · -- the seed container [[]]
    obtain ⟨bs, c, n⟩ := sv
    simp only at hseed
    subst hseed
    have hn : n = 0 := by simpa using hI.sizeEq
    subst hn
    have hc : 1 ≤ c := hI.capPos
    have hbs : binarySearchBy (fun b => Bucket.itemCompare b x) [] [[]] = .ok 0 := rfl
    have hfind : SortedVec.find_bucket_index ⟨[[]], c, 0⟩ x = 0 := by
      simp only [SortedVec.find_bucket_index, hbs]
    have hadd : Bucket.add [] x = (.added 0, [x]) := rfl
    refine ⟨⟨[[x]], c, 1⟩, ?_, ?_, rfl, by simp, by simp, by simp⟩
    · simp only [SortedVec.insert, hfind, hadd, List.getElem?_cons_zero,
        List.length_cons, List.length_nil, List.set_cons_zero, Nat.zero_add,
        gt_iff_lt]
      rw [if_neg (by omega)]
    · refine ⟨by simp, ?_, by simp, Or.inr (by simp), by simpa using hc, hc⟩
      simp [BucketsOrdered]
  · -- every bucket nonempty
    obtain ⟨hidx, hlow, hhigh, huniq⟩ := find_bucket_routes hI.sorted hI.ordered hne hb
    have hold : sv.buckets[sv.find_bucket_index x]? =
        some (sv.buckets[sv.find_bucket_index x]) := List.getElem?_eq_getElem hidx
    generalize holdEq : sv.buckets[sv.find_bucket_index x] = old at *
    have holdmem : old ∈ sv.buckets := holdEq ▸ List.getElem_mem hidx
    have holds : old.Sorted (· < ·) := hI.sorted _ holdmem
    have hdecomp : sv.buckets =
        sv.buckets.take (sv.find_bucket_index x) ++
          old :: sv.buckets.drop (sv.find_bucket_index x + 1) := by
      rw [← holdEq]
      exact bucket_decomp _ _ hidx
    have hmem_iff : x ∈ sv.buckets.flatten ↔ x ∈ old := by
      constructor
      · intro hx
        obtain ⟨b, hbmem, hxb⟩ := List.mem_flatten.mp hx
        obtain ⟨k, hk, hkb⟩ := List.mem_iff_getElem.mp hbmem
        have hik : sv.find_bucket_index x = k := huniq k hk (hkb ▸ hxb)
        subst hik
        rw [holdEq] at hkb
        exact hkb ▸ hxb
      · intro hx
        exact List.mem_flatten.mpr ⟨old, holdmem, hx⟩
    by_cases hx : x ∈ old
    · -- duplicate: no state change
      obtain ⟨i, haddEq⟩ := add_of_mem holds hx
      refine ⟨sv, ?_, hI, rfl, hb, ?_, fun _ => rfl⟩
      · simp only [SortedVec.insert, hold, haddEq]
      · intro y
        constructor
        · exact Or.inr
        · rintro (rfl | hy)
          · exact hmem_iff.mpr hx
          · exact hy
    · -- genuinely added
      have hxf : x ∉ sv.buckets.flatten := fun h => hx (hmem_iff.mp h)
      obtain ⟨i, nd, haddEq, hndEq, hile, hnds, hndlen, hndmem⟩ :=
        add_of_not_mem holds hx
      have hlowm : ∀ b ∈ sv.buckets.take (sv.find_bucket_index x), ∀ a ∈ b, a < x := by
        intro b hbm a ha
        obtain ⟨k, hki, hkl, hkb⟩ := mem_take_idx hbm
        exact hlow k hkl hki a (hkb ▸ ha)
      have hhighm : ∀ b ∈ sv.buckets.drop (sv.find_bucket_index x + 1),
          ∀ a ∈ b, x < a := by
        intro b hbm a ha
        obtain ⟨k, hki, hkl, hkb⟩ := mem_drop_idx hbm
        exact hhigh k hkl (by omega) a (hkb ▸ ha)
      have hsP : ∀ b ∈ sv.buckets.take (sv.find_bucket_index x) ++
          old :: sv.buckets.drop (sv.find_bucket_index x + 1), b.Sorted (· < ·) := by
        rw [← hdecomp]; exact hI.sorted
      have hordP : BucketsOrdered (sv.buckets.take (sv.find_bucket_index x) ++
          old :: sv.buckets.drop (sv.find_bucket_index x + 1)) := by
        rw [← hdecomp]; exact hI.ordered
      have hcap_old : old.length ≤ sv.maxCap := hI.capBound _ holdmem
      have hne_sub : ∀ b ∈ sv.buckets.take (sv.find_bucket_index x), b ≠ [] :=
        fun b hbm => hne b ((List.take_sublist _ _).subset hbm)
      have hne_sub' : ∀ b ∈ sv.buckets.drop (sv.find_bucket_index x + 1), b ≠ [] :=
        fun b hbm => hne b ((List.drop_sublist _ _).subset hbm)
      have hcap_sub : ∀ b ∈ sv.buckets.take (sv.find_bucket_index x),
          b.length ≤ sv.maxCap :=
        fun b hbm => hI.capBound b ((List.take_sublist _ _).subset hbm)
      have hcap_sub' : ∀ b ∈ sv.buckets.drop (sv.find_bucket_index x + 1),
          b.length ≤ sv.maxCap :=
        fun b hbm => hI.capBound b ((List.drop_sublist _ _).subset hbm)
      have hsum : sv.size =
          ((sv.buckets.take (sv.find_bucket_index x)).map List.length).sum +
            old.length +
            ((sv.buckets.drop (sv.find_bucket_index x + 1)).map List.length).sum := by
        rw [hI.sizeEq]
        conv_lhs => rw [hdecomp]
        simp only [List.map_append, List.sum_append, List.map_cons, List.sum_cons]
        omega
      have hcp : 1 ≤ sv.maxCap := hI.capPos
      by_cases hsplit : nd.length > sv.maxCap
      · -- split: two half buckets replace the target
        refine ⟨⟨sv.buckets.take (sv.find_bucket_index x) ++
            nd.take (nd.length / 2) :: nd.drop (nd.length / 2) ::
              sv.buckets.drop (sv.find_bucket_index x + 1), sv.maxCap, sv.size + 1⟩,
          ?_, ?_, rfl, by simp, ?_, fun h => absurd h hxf⟩
        · simp only [SortedVec.insert, hold, haddEq, Bucket.split]
          rw [if_pos hsplit]
          simp only [Option.some.injEq]
          congr 1
          exact set_insertIdx_decomp _ _ hidx _ _
        · have hts : (nd.take (nd.length / 2)).Sorted (· < ·) :=
            List.Pairwise.sublist (List.take_sublist _ _) hnds
          have hus : (nd.drop (nd.length / 2)).Sorted (· < ·) :=
            List.Pairwise.sublist (List.drop_sublist _ _) hnds
          obtain ⟨hS', hO'⟩ := replace_ordered
            [nd.take (nd.length / 2), nd.drop (nd.length / 2)] x hsP hordP
            (by intro b hbm
                rcases List.mem_cons.mp hbm with rfl | hbm
                · exact hts
                · rcases List.mem_cons.mp hbm with rfl | hbm
                  · exact hus
                  · cases hbm)
            (by rw [BucketsOrdered, List.pairwise_cons]
                refine ⟨?_, by simp [BucketsOrdered]⟩
                intro b hbm
                rcases List.mem_cons.mp hbm with rfl | hbm
                · exact sorted_take_lt_drop hnds _
                · cases hbm)
            (by intro b hbm y hy
                have hynd : y ∈ nd := by
                  rcases List.mem_cons.mp hbm with rfl | hbm
                  · exact (List.take_sublist _ _).subset hy
                  · rcases List.mem_cons.mp hbm with rfl | hbm
                    · exact (List.drop_sublist _ _).subset hy
                    · cases hbm
                exact (hndmem y).mp hynd)
            hlowm hhighm
          have hndlen2 : 2 ≤ nd.length := by omega
          refine ⟨?_, ?_, ?_, Or.inr ?_, ?_, hI.capPos⟩
          · intro b hbm
            exact hS' b (by simpa using hbm)
          · have := hO'
            simp only [List.append_assoc] at this ⊢
            simpa using this
          · simp only [List.map_append, List.sum_append, List.map_cons,
              List.sum_cons]
            have h1 : (nd.take (nd.length / 2)).length = nd.length / 2 := by
              simp [List.length_take]; omega
            have h2 : (nd.drop (nd.length / 2)).length = nd.length - nd.length / 2 := by
              simp [List.length_drop]
            rw [h1, h2, hsum, hndlen]
            omega
          · intro b hbm
            rcases List.mem_append.mp hbm with hbm | hbm
            · exact hne_sub b hbm
            · rcases List.mem_cons.mp hbm with rfl | hbm
              · intro hnil
                have := congrArg List.length hnil
                simp only [List.length_take, List.length_nil] at this
                omega
              · rcases List.mem_cons.mp hbm with rfl | hbm
                · intro hnil
                  have := congrArg List.length hnil
                  simp only [List.length_drop, List.length_nil] at this
                  omega
                · exact hne_sub' b hbm
          · intro b hbm
            rcases List.mem_append.mp hbm with hbm | hbm
            · exact hcap_sub b hbm
            · rcases List.mem_cons.mp hbm with rfl | hbm
              · simp only [List.length_take]
                omega
              · rcases List.mem_cons.mp hbm with rfl | hbm
                · simp only [List.length_drop]
                  omega
                · exact hcap_sub' b hbm
        · intro y
          conv_rhs => rw [hdecomp]
          simp only [List.flatten_append, List.flatten_cons, List.mem_append]
          have hy_nd : y ∈ nd.take (nd.length / 2) ∨ y ∈ nd.drop (nd.length / 2) ↔
              y = x ∨ y ∈ old := by
            rw [← List.mem_append, List.take_append_drop]
            exact hndmem y
          tauto
      · -- no split: the enlarged bucket replaces the target
        refine ⟨⟨sv.buckets.set (sv.find_bucket_index x) nd, sv.maxCap, sv.size + 1⟩,
          ?_, ?_, rfl, ?_, ?_, fun h => absurd h hxf⟩
        · simp only [SortedVec.insert, hold, haddEq]
          rw [if_neg hsplit]
        · have hset : sv.buckets.set (sv.find_bucket_index x) nd =
              sv.buckets.take (sv.find_bucket_index x) ++
                nd :: sv.buckets.drop (sv.find_bucket_index x + 1) :=
            List.set_eq_take_cons_drop nd hidx
          obtain ⟨hS', hO'⟩ := replace_ordered [nd] x hsP hordP
            (by intro b hbm
                rcases List.mem_cons.mp hbm with rfl | hbm
                · exact hnds
                · cases hbm)
            (by simp [BucketsOrdered])
            (by intro b hbm y hy
                rcases List.mem_cons.mp hbm with rfl | hbm
                · exact (hndmem y).mp hy
                · cases hbm)
            hlowm hhighm
          refine ⟨?_, ?_, ?_, Or.inr ?_, ?_, hI.capPos⟩
          · intro b hbm
            rw [hset] at hbm
            exact hS' b (by simpa using hbm)
          · rw [hset]
            have := hO'
            simp only [List.append_assoc] at this ⊢
            simpa using this
          · rw [hset]
            simp only [List.map_append, List.sum_append, List.map_cons,
              List.sum_cons]
            rw [hndlen, hsum]
            omega
          · intro b hbm
            rw [hset] at hbm
            rcases List.mem_append.mp hbm with hbm | hbm
            · exact hne_sub b hbm
            · rcases List.mem_cons.mp hbm with rfl | hbm
              · intro hnil
                have := congrArg List.length hnil
                rw [hndlen] at this
                simp at this
              · exact hne_sub' b hbm
          · intro b hbm
            rw [hset] at hbm
            rcases List.mem_append.mp hbm with hbm | hbm
            · exact hcap_sub b hbm
            · rcases List.mem_cons.mp hbm with rfl | hbm
              · show b.length ≤ sv.maxCap
                omega
              · exact hcap_sub' b hbm
        · simp only [ne_eq]
          intro hnil
          have := congrArg List.length hnil
          simp only [List.length_set, List.length_nil] at this
          omega
        · intro y
          rw [List.set_eq_take_cons_drop nd hidx]
          conv_rhs => rw [hdecomp]
          simp only [List.flatten_append, List.flatten_cons, List.mem_append]
          have := hndmem y
          tauto

/-- A binary search for a value present in a strictly sorted list answers
`Ok` at the value's position. -/
theorem bs_ok_of_mem {data : List Int} {x : Int} (hs : data.Sorted (· < ·))
    (hm : x ∈ data) :
    ∃ p, binarySearchBy (fun y => cmpInt y x) 0 data = .ok p ∧
      ∃ (hp : p < data.length), data[p] = x := by
  cases hbs : binarySearchBy (fun y => cmpInt y x) 0 data with
  | ok p =>
    obtain ⟨hp, hEq⟩ := binarySearchBy_ok hbs
    exact ⟨p, rfl, hp, cmpInt_eq_iff.mp hEq⟩
  | error i =>
    exfalso
    obtain ⟨k, hk, hkx⟩ := List.mem_iff_getElem.mp hm
    obtain ⟨hi, hlo, hhi⟩ := binarySearchBy_err (monoProbe_cmpInt hs x) hbs
    by_cases hki : k < i
    · have := cmpInt_lt_iff.mp (hlo k hk hki)
      omega
    · have := cmpInt_gt_iff.mp (hhi k hk (by omega))
      omega

/-- A binary search for a value absent from a strictly sorted list answers
`Err`. -/
theorem bs_err_of_not_mem {data : List Int} {x : Int} (hs : data.Sorted (· < ·))
    (hm : x ∉ data) :
    ∃ i, binarySearchBy (fun y => cmpInt y x) 0 data = .error i := by
  cases hbs : binarySearchBy (fun y => cmpInt y x) 0 data with
  | ok p =>
    obtain ⟨hp, hEq⟩ := binarySearchBy_ok hbs
    exact absurd (cmpInt_eq_iff.mp hEq ▸ List.getElem_mem hp) hm
  | error i => exact ⟨i, rfl⟩

set_option maxHeartbeats 1000000 in
/-- Full characterization of `remove` on an invariant-satisfying container
with at least one bucket: it succeeds, preserves the invariant and the
capacity, its elements are the old ones minus the removed value, and removing
an absent value returns the container unchanged. -/
theorem remove_spec {sv : SortedVec} (hI : SVInv sv) (hb : sv.buckets ≠ []) (x : Int) :
    ∃ sv', sv.remove x = some sv' ∧ SVInv sv' ∧ sv'.maxCap = sv.maxCap ∧
      (∀ y, y ∈ sv'.buckets.flatten ↔ y ∈ sv.buckets.flatten ∧ y ≠ x) ∧
      (x ∉ sv.buckets.flatten → sv' = sv) := by
  rcases hI.seed with hseed | hne
  · -- the seed container [[]]
    obtain ⟨bs, c, n⟩ := sv
    simp only at hseed
    subst hseed
    have hn : n = 0 := by simpa using hI.sizeEq
    subst hn
    have hbs : binarySearchBy (fun b => Bucket.itemCompare b x) [] [[]] = .ok 0 := rfl
    have hfind : SortedVec.find_bucket_index ⟨[[]], c, 0⟩ x = 0 := by
      simp only [SortedVec.find_bucket_index, hbs]
    have hinner : binarySearchBy (fun y => cmpInt y x) 0 [] = .error 0 := rfl
    have hfi : SortedVec.find_index ⟨[[]], c, 0⟩ x = some none := by
      simp only [SortedVec.find_index, hfind, List.getElem?_cons_zero, hinner]
    refine ⟨⟨[[]], c, 0⟩, ?_, hI, rfl, by simp, fun _ => rfl⟩
    simp only [SortedVec.remove, hfi]
  · -- every bucket nonempty
    obtain ⟨hidx, hlow, hhigh, huniq⟩ := find_bucket_routes hI.sorted hI.ordered hne hb
    have hold : sv.buckets[sv.find_bucket_index x]? =
        some (sv.buckets[sv.find_bucket_index x]) := List.getElem?_eq_getElem hidx
    generalize holdEq : sv.buckets[sv.find_bucket_index x] = old at *
    have holdmem : old ∈ sv.buckets := holdEq ▸ List.getElem_mem hidx
    have holds : old.Sorted (· < ·) := hI.sorted _ holdmem
    have hdecomp : sv.buckets =
        sv.buckets.take (sv.find_bucket_index x) ++
          old :: sv.buckets.drop (sv.find_bucket_index x + 1) := by
      rw [← holdEq]
      exact bucket_decomp _ _ hidx
    have hmem_iff : x ∈ sv.buckets.flatten ↔ x ∈ old := by
      constructor
      · intro hx
        obtain ⟨b, hbmem, hxb⟩ := List.mem_flatten.mp hx
        obtain ⟨k, hk, hkb⟩ := List.mem_iff_getElem.mp hbmem
        have hik : sv.find_bucket_index x = k := huniq k hk (hkb ▸ hxb)
        subst hik
        rw [holdEq] at hkb
        exact hkb ▸ hxb
      · intro hx
        exact List.mem_flatten.mpr ⟨old, holdmem, hx⟩
    by_cases hx : x ∈ sv.buckets.flatten
    · -- found: erase the element
      have hxo : x ∈ old := hmem_iff.mp hx
      obtain ⟨p, hbsp, hp, hpx⟩ := bs_ok_of_mem holds hxo
      have hfi : sv.find_index x =
          some (some (sv.find_bucket_index x, p)) := by
        simp only [SortedVec.find_index, hold, hbsp]
      have hnodup : old.Nodup := holds.nodup
      have hmemnd : ∀ y, y ∈ old.eraseIdx p ↔ (y ∈ old ∧ y ≠ x) := by
        intro y
        rw [mem_eraseIdx_of_nodup old p hp hnodup y, hpx]
      have hnds : (old.eraseIdx p).Sorted (· < ·) :=
        List.Pairwise.sublist (List.eraseIdx_sublist _ _) holds
      have hndlen : (old.eraseIdx p).length = old.length - 1 := by
        rw [List.length_eraseIdx]
        simp [hp]
      have holdlen : 1 ≤ old.length :=
        List.length_pos.mpr (hne _ holdmem)
      have hlowm : ∀ b ∈ sv.buckets.take (sv.find_bucket_index x), ∀ a ∈ b, a < x := by
        intro b hbm a ha
        obtain ⟨k, hki, hkl, hkb⟩ := mem_take_idx hbm
        exact hlow k hkl hki a (hkb ▸ ha)
      have hhighm : ∀ b ∈ sv.buckets.drop (sv.find_bucket_index x + 1),
          ∀ a ∈ b, x < a := by
        intro b hbm a ha
        obtain ⟨k, hki, hkl, hkb⟩ := mem_drop_idx hbm
        exact hhigh k hkl (by omega) a (hkb ▸ ha)
      have hPne : ∀ y ∈ (sv.buckets.take (sv.find_bucket_index x)).flatten, y < x := by
        intro y hy
        obtain ⟨b, hbm, hyb⟩ := List.mem_flatten.mp hy
        exact hlowm b hbm y hyb
      have hSne : ∀ y ∈ (sv.buckets.drop (sv.find_bucket_index x + 1)).flatten,
          x < y := by
        intro y hy
        obtain ⟨b, hbm, hyb⟩ := List.mem_flatten.mp hy
        exact hhighm b hbm y hyb
      have hsP : ∀ b ∈ sv.buckets.take (sv.find_bucket_index x) ++
          old :: sv.buckets.drop (sv.find_bucket_index x + 1), b.Sorted (· < ·) := by
        rw [← hdecomp]; exact hI.sorted
      have hordP : BucketsOrdered (sv.buckets.take (sv.find_bucket_index x) ++
          old :: sv.buckets.drop (sv.find_bucket_index x + 1)) := by
        rw [← hdecomp]; exact hI.ordered
      have hne_sub : ∀ b ∈ sv.buckets.take (sv.find_bucket_index x), b ≠ [] :=
        fun b hbm => hne b ((List.take_sublist _ _).subset hbm)
      have hne_sub' : ∀ b ∈ sv.buckets.drop (sv.find_bucket_index x + 1), b ≠ [] :=
        fun b hbm => hne b ((List.drop_sublist _ _).subset hbm)
      have hcap_sub : ∀ b ∈ sv.buckets.take (sv.find_bucket_index x),
          b.length ≤ sv.maxCap :=
        fun b hbm => hI.capBound b ((List.take_sublist _ _).subset hbm)
      have hcap_sub' : ∀ b ∈ sv.buckets.drop (sv.find_bucket_index x + 1),
          b.length ≤ sv.maxCap :=
        fun b hbm => hI.capBound b ((List.drop_sublist _ _).subset hbm)
      have hsum : sv.size =
          ((sv.buckets.take (sv.find_bucket_index x)).map List.length).sum +
            old.length +
            ((sv.buckets.drop (sv.find_bucket_index x + 1)).map List.length).sum := by
        rw [hI.sizeEq]
        conv_lhs => rw [hdecomp]
        simp only [List.map_append, List.sum_append, List.map_cons, List.sum_cons]
        omega
      by_cases hempty : (old.eraseIdx p).isEmpty
      · -- the bucket became empty and is removed
        have hnil : old.eraseIdx p = [] := List.isEmpty_iff.mp hempty
        have holdone : old.length = 1 := by
          have := congrArg List.length hnil
          rw [hndlen] at this
          simp at this
          omega
        have hox : ∀ y, y ∈ old ↔ y = x := by
          intro y
          constructor
          · intro hy
            by_contra hne'
            have : y ∈ old.eraseIdx p := (hmemnd y).mpr ⟨hy, hne'⟩
            rw [hnil] at this
            cases this
          · rintro rfl; exact hxo
        refine ⟨⟨sv.buckets.eraseIdx (sv.find_bucket_index x), sv.maxCap,
            sv.size - 1⟩, ?_, ?_, rfl, ?_, fun h => absurd hx h⟩
        · simp only [SortedVec.remove, hfi, hold, hempty, if_true]
        · have herase : sv.buckets.eraseIdx (sv.find_bucket_index x) =
              sv.buckets.take (sv.find_bucket_index x) ++
                sv.buckets.drop (sv.find_bucket_index x + 1) :=
            List.eraseIdx_eq_take_drop_succ _ _
          obtain ⟨hS', hO'⟩ := replace_ordered [] x hsP hordP
            (by intro b hbm; cases hbm)
            (by simp [BucketsOrdered])
            (by intro b hbm; cases hbm)
            hlowm hhighm
          refine ⟨?_, ?_, ?_, Or.inr ?_, ?_, hI.capPos⟩
          · intro b hbm
            rw [herase] at hbm
            exact hS' b (by simpa using hbm)
          · rw [herase]
            simpa using hO'
          · rw [herase]
            simp only [List.map_append, List.sum_append]
            rw [hsum]
            omega
          · intro b hbm
            rw [herase] at hbm
            rcases List.mem_append.mp hbm with hbm | hbm
            · exact hne_sub b hbm
            · exact hne_sub' b hbm
          · intro b hbm
            rw [herase] at hbm
            rcases List.mem_append.mp hbm with hbm | hbm
            · exact hcap_sub b hbm
            · exact hcap_sub' b hbm
        · intro y
          rw [List.eraseIdx_eq_take_drop_succ]
          conv_rhs => rw [hdecomp]
          simp only [List.flatten_append, List.flatten_cons, List.mem_append]
          have h1 := hox y
          have h2 := hPne y
          have h3 := hSne y
          constructor
          · rintro (hy | hy)
            · exact ⟨Or.inl hy, ne_of_lt (h2 hy)⟩
            · exact ⟨Or.inr (Or.inr hy), ne_of_gt (h3 hy)⟩
          · rintro ⟨hy | hy | hy, hney⟩
            · exact Or.inl hy
            · exact absurd (h1.mp hy) hney
            · exact Or.inr hy
      · -- the bucket stays, one element shorter
        have hndnil : old.eraseIdx p ≠ [] := by
          intro hnil
          rw [hnil] at hempty
          exact hempty rfl
        refine ⟨⟨sv.buckets.set (sv.find_bucket_index x) (old.eraseIdx p),
            sv.maxCap, sv.size - 1⟩, ?_, ?_, rfl, ?_, fun h => absurd hx h⟩
        · simp only [SortedVec.remove, hfi, hold]
          rw [if_neg (by simpa using hndnil)]
        · have hset : sv.buckets.set (sv.find_bucket_index x) (old.eraseIdx p) =
              sv.buckets.take (sv.find_bucket_index x) ++
                old.eraseIdx p :: sv.buckets.drop (sv.find_bucket_index x + 1) :=
            List.set_eq_take_cons_drop _ hidx
          obtain ⟨hS', hO'⟩ := replace_ordered [old.eraseIdx p] x hsP hordP
            (by intro b hbm
                rcases List.mem_cons.mp hbm with rfl | hbm
                · exact hnds
                · cases hbm)
            (by simp [BucketsOrdered])
            (by intro b hbm y hy
                rcases List.mem_cons.mp hbm with rfl | hbm
                · exact Or.inr ((hmemnd y).mp hy).1
                · cases hbm)
            hlowm hhighm
          refine ⟨?_, ?_, ?_, Or.inr ?_, ?_, hI.capPos⟩
          · intro b hbm
            rw [hset] at hbm
            exact hS' b (by simpa using hbm)
          · rw [hset]
            have := hO'
            simp only [List.append_assoc] at this ⊢
            simpa using this
          · rw [hset]
            simp only [List.map_append, List.sum_append, List.map_cons, List.sum_cons]
            rw [hndlen, hsum]
            omega
          · intro b hbm
            rw [hset] at hbm
            rcases List.mem_append.mp hbm with hbm | hbm
            · exact hne_sub b hbm
            · rcases List.mem_cons.mp hbm with rfl | hbm
              · exact hndnil
              · exact hne_sub' b hbm
          · intro b hbm
            rw [hset] at hbm
            rcases List.mem_append.mp hbm with hbm | hbm
            · exact hcap_sub b hbm
            · rcases List.mem_cons.mp hbm with rfl | hbm
              · show (old.eraseIdx p).length ≤ sv.maxCap
                have := hI.capBound old holdmem
                omega
              · exact hcap_sub' b hbm
        · intro y
          rw [List.set_eq_take_cons_drop _ hidx]
          conv_rhs => rw [hdecomp]
          simp only [List.flatten_append, List.flatten_cons, List.mem_append]
          have h1 := hmemnd y
          have h2 := hPne y
          have h3 := hSne y
          constructor
          · rintro (hy | hy | hy)
            · exact ⟨Or.inl hy, ne_of_lt (h2 hy)⟩
            · obtain ⟨hyo, hyx⟩ := h1.mp hy
              exact ⟨Or.inr (Or.inl hyo), hyx⟩
            · exact ⟨Or.inr (Or.inr hy), ne_of_gt (h3 hy)⟩
          · rintro ⟨hy | hy | hy, hney⟩
            · exact Or.inl hy
            · exact Or.inr (Or.inl (h1.mpr ⟨hy, hney⟩))
            · exact Or.inr (Or.inr hy)
    · -- absent: no-op
      have hxo : x ∉ old := fun h => hx (hmem_iff.mpr h)
      obtain ⟨i, hbsi⟩ := bs_err_of_not_mem holds hxo
      have hfi : sv.find_index x = some none := by
        simp only [SortedVec.find_index, hold, hbsi]
      refine ⟨sv, ?_, hI, rfl, ?_, fun _ => rfl⟩
      · simp only [SortedVec.remove, hfi]
      · intro y
        constructor
        · intro hy
          refine ⟨hy, ?_⟩
          rintro rfl
          exact hx hy
        · exact And.left

/-! ## Reachable states -/

theorem insert_none_of_nil {sv : SortedVec} (h : sv.buckets = []) (x : Int) :
    sv.insert x = none := by
  simp only [SortedVec.insert, h, List.getElem?_nil]

theorem find_index_none_of_nil {sv : SortedVec} (h : sv.buckets = []) (x : Int) :
    sv.find_index x = none := by
  simp only [SortedVec.find_index, h, List.getElem?_nil]

theorem remove_none_of_nil {sv : SortedVec} (h : sv.buckets = []) (x : Int) :
    sv.remove x = none := by
  simp only [SortedVec.remove, find_index_none_of_nil h]

/-- Container states reachable from `new cap` (valid capacity) through
successful `insert` and `remove` calls. -/
inductive Reachable (cap : Nat) : SortedVec → Prop where
  | init : 1 ≤ cap → Reachable cap (SortedVec.new cap)
  | insert {sv sv' : SortedVec} {x : Int} : Reachable cap sv →
      sv.insert x = some sv' → Reachable cap sv'
  | remove {sv sv' : SortedVec} {x : Int} : Reachable cap sv →
      sv.remove x = some sv' → Reachable cap sv'

/-- Every reachable state satisfies the structural invariant and keeps the
configured capacity. -/
theorem reachable_inv {cap : Nat} {sv : SortedVec} (h : Reachable cap sv) :
    SVInv sv ∧ sv.maxCap = cap := by
  induction h with
  | init hc => exact ⟨inv_new hc, rfl⟩
  | @insert sv sv' x hR hstep ih =>
    obtain ⟨hI, hcap⟩ := ih
    rcases eq_or_ne sv.buckets [] with hnil | hnil
    · rw [insert_none_of_nil hnil] at hstep
      cases hstep
    · obtain ⟨sv'', hstep', hI', hcap', -, -, -⟩ := insert_spec hI hnil x
      rw [hstep] at hstep'
      injection hstep' with hEq
      subst hEq
      exact ⟨hI', by rw [← hcap, hcap']⟩
  | @remove sv sv' x hR hstep ih =>
    obtain ⟨hI, hcap⟩ := ih
    rcases eq_or_ne sv.buckets [] with hnil | hnil
    · rw [remove_none_of_nil hnil] at hstep
      cases hstep
    · obtain ⟨sv'', hstep', hI', hcap', -, -⟩ := remove_spec hI hnil x
      rw [hstep] at hstep'
      injection hstep' with hEq
      subst hEq
      exact ⟨hI', by rw [← hcap, hcap']⟩

/-! ## Rank access and iteration -/

theorem atGo_eq_flatten_getElem? :
    ∀ (bs : List (List Int)) (i : Nat), SortedVec.atGo bs i = bs.flatten[i]?
  | [], i => by simp [SortedVec.atGo]
  | b :: rest, i => by
    rw [SortedVec.atGo, List.flatten_cons, List.getElem?_append]
    by_cases h : i < b.length
    · rw [if_pos h, if_pos h]
    · rw [if_neg h, if_neg h, atGo_eq_flatten_getElem? rest (i - b.length)]

/-- `at` is rank access into the concatenation of the buckets. -/
theorem atIdx_eq_flatten (sv : SortedVec) (i : Nat) :
    sv.atIdx i = sv.buckets.flatten[i]? :=
  atGo_eq_flatten_getElem? sv.buckets i

theorem iterFrom_eq {sv : SortedVec} (hlen : sv.size = sv.buckets.flatten.length) :
    ∀ (fuel i : Nat), i + fuel = sv.size →
      SortedVec.iterFrom sv i fuel = sv.buckets.flatten.drop i
  | 0, i, h => by
    rw [SortedVec.iterFrom]
    rw [List.drop_of_length_le (by omega)]
  | fuel + 1, i, h => by
    have hi : i < sv.size := by omega
    have hil : i < sv.buckets.flatten.length := by omega
    simp only [SortedVec.iterFrom, if_pos hi, atIdx_eq_flatten,
      List.getElem?_eq_getElem hil]
    rw [iterFrom_eq hlen fuel (i + 1) (by omega), ← List.drop_eq_getElem_cons hil]

/-- The iterator yields exactly the concatenation of the buckets. -/
theorem iterList_eq {sv : SortedVec} (hI : SVInv sv) :
    sv.iterList = sv.buckets.flatten := by
  have hlen : sv.size = sv.buckets.flatten.length := by
    rw [hI.sizeEq, List.length_flatten]
  rw [SortedVec.iterList, iterFrom_eq hlen sv.size 0 (by omega), List.drop_zero]

/-- Sorted buckets in ascending range order concatenate to a strictly sorted
sequence. -/
theorem flatten_sorted {bs : List (List Int)} (hs : ∀ b ∈ bs, b.Sorted (· < ·))
    (hord : BucketsOrdered bs) : bs.flatten.Sorted (· < ·) := by
  induction bs with
  | nil => simp
  | cons b rest ih =>
    rw [BucketsOrdered, List.pairwise_cons] at hord
    rw [List.flatten_cons, List.Sorted, List.pairwise_append]
    refine ⟨hs b (by simp), ih (fun b' hb' => hs b' (by simp [hb'])) hord.2, ?_⟩
    intro a ha y hy
    obtain ⟨b', hb', hyb'⟩ := List.mem_flatten.mp hy
    exact hord.1 b' hb' a ha y hyb'

/-- Rank of the `i`-th element of bucket `k` inside the concatenation: the
lengths of the earlier buckets plus `i`. -/
theorem flatten_getElem?_rank :
    ∀ (bs : List (List Int)) (k : Nat) (hk : k < bs.length) (i : Nat)
      (hi : i < bs[k].length),
      bs.flatten[((bs.take k).map List.length).sum + i]? = some bs[k][i]
  | b :: rest, 0, _, i, hi => by
    simp only [List.take_zero, List.map_nil, List.sum_nil, Nat.zero_add,
      List.flatten_cons, List.getElem_cons_zero]
    rw [List.getElem?_append]
    rw [if_pos (by simpa using hi)]
    exact List.getElem?_eq_getElem _
  | b :: rest, k + 1, hk, i, hi => by
    simp only [List.take_succ_cons, List.map_cons, List.sum_cons,
      List.flatten_cons, List.getElem_cons_succ]
    rw [List.getElem?_append_right (by omega)]
    have : b.length + ((rest.take k).map List.length).sum + i - b.length =
        ((rest.take k).map List.length).sum + i := by omega
    rw [Nat.add_assoc, Nat.add_sub_cancel_left]
    exact flatten_getElem?_rank rest k (by simpa using hk) i (by simpa using hi)

/-! ## Claims -/

/-- C1: the spec requires that `remove`, after deleting an emptied bucket,
never leaves the container with zero buckets.  The code has no such guard:
starting from `new 10`, inserting 5 and then removing 5 empties the only
bucket and deletes it, leaving a container with an empty bucket sequence. -/
theorem C1_remove_leaves_zero_buckets :
    ((SortedVec.new 10).insert 5).bind (fun s => s.remove 5) =
      some { buckets := [], maxCap := 10, size := 0 } := by
  decide

/-- C2: the spec says no finite sequence of the public operations panics.
After `insert 5; remove 5` empties the bucket sequence, a further `insert`
(`remove` and `find_index` likewise) indexes `buckets[idx]` out of bounds and
panics (modelled as `none`). -/
theorem C2_insert_after_empty_panics :
    (((SortedVec.new 10).insert 5).bind (fun s => s.remove 5)).bind
      (fun s => s.insert 3) = none := by
  decide

/-- C3: in every reachable state iteration yields a non-decreasing sequence,
and every element of bucket `i` is ≤ every element of bucket `i+1`. -/
theorem C3_sortedness {cap : Nat} {sv : SortedVec} (h : Reachable cap sv) :
    sv.iterList.Sorted (· ≤ ·) ∧
      ∀ (i : Nat) (bi bj : List Int), sv.buckets[i]? = some bi →
        sv.buckets[i + 1]? = some bj → ∀ x ∈ bi, ∀ y ∈ bj, x ≤ y := by
  obtain ⟨hI, -⟩ := reachable_inv h
  constructor
  · rw [iterList_eq hI]
    exact List.Pairwise.imp le_of_lt (flatten_sorted hI.sorted hI.ordered)
  · intro i bi bj hbi hbj x hx y hy
    have hi : i < sv.buckets.length := by
      by_contra hc
      rw [List.getElem?_eq_none (by omega)] at hbi
      cases hbi
    have hj : i + 1 < sv.buckets.length := by
      by_contra hc
      rw [List.getElem?_eq_none (by omega)] at hbj
      cases hbj
    have h1 : sv.buckets[i] = bi := by
      rw [List.getElem?_eq_getElem hi] at hbi
      exact Option.some.inj hbi
    have h2 : sv.buckets[i + 1] = bj := by
      rw [List.getElem?_eq_getElem hj] at hbj
      exact Option.some.inj hbj
    have hp := List.pairwise_iff_getElem.mp hI.ordered i (i + 1) hi hj (by omega)
    rw [h1, h2] at hp
    exact le_of_lt (hp x hx y hy)

/-- Witness for C3 at the reachable state reached by `new 1; insert 5;
insert 3` (scenario 2 of the spec). -/
theorem C3_sortedness_witness :
    (SortedVec.iterList ⟨[[3], [5]], 1, 2⟩).Sorted (· ≤ ·) ∧
      ∀ (i : Nat) (bi bj : List Int),
        (⟨[[3], [5]], 1, 2⟩ : SortedVec).buckets[i]? = some bi →
        (⟨[[3], [5]], 1, 2⟩ : SortedVec).buckets[i + 1]? = some bj →
        ∀ x ∈ bi, ∀ y ∈ bj, x ≤ y :=
  C3_sortedness (@Reachable.insert 1 ⟨[[5]], 1, 1⟩ ⟨[[3], [5]], 1, 2⟩ 3
    (@Reachable.insert 1 (SortedVec.new 1) ⟨[[5]], 1, 1⟩ 5
      (Reachable.init (by decide)) (by decide))
    (by decide))

/-- C4: in every reachable state the cached `size` equals the sum of the
bucket lengths and the number of elements a full iteration yields. -/
theorem C4_size {cap : Nat} {sv : SortedVec} (h : Reachable cap sv) :
    sv.size = (sv.buckets.map List.length).sum ∧ sv.iterList.length = sv.size := by
  obtain ⟨hI, -⟩ := reachable_inv h
  refine ⟨hI.sizeEq, ?_⟩
  rw [iterList_eq hI, List.length_flatten, hI.sizeEq]

/-- Witness for C4 at the reachable state reached by `new 1; insert 5;
insert 3`. -/
theorem C4_size_witness :
    (⟨[[3], [5]], 1, 2⟩ : SortedVec).size =
        ((⟨[[3], [5]], 1, 2⟩ : SortedVec).buckets.map List.length).sum ∧
      (SortedVec.iterList ⟨[[3], [5]], 1, 2⟩).length =
        (⟨[[3], [5]], 1, 2⟩ : SortedVec).size :=
  C4_size (@Reachable.insert 1 ⟨[[5]], 1, 1⟩ ⟨[[3], [5]], 1, 2⟩ 3
    (@Reachable.insert 1 (SortedVec.new 1) ⟨[[5]], 1, 1⟩ 5
      (Reachable.init (by decide)) (by decide))
    (by decide))

/-- C5: `split` truncates the bucket to its first ⌊N/2⌋ elements in their
original order and returns the remaining N − ⌊N/2⌋ elements in their
original order, duplicating and losing nothing; the empty bucket splits into
two empty buckets. -/
theorem C5_split (data : List Int) :
    (Bucket.split data).1 = data.take (data.length / 2) ∧
      (Bucket.split data).2 = data.drop (data.length / 2) ∧
      (Bucket.split data).1 ++ (Bucket.split data).2 = data ∧
      (Bucket.split data).1.length = data.length / 2 ∧
      (Bucket.split data).2.length = data.length - data.length / 2 ∧
      Bucket.split ([] : List Int) = ([], []) := by
  refine ⟨rfl, rfl, List.take_append_drop _ _, ?_, ?_, rfl⟩
  · simp only [Bucket.split, List.length_take]
    omega
  · simp only [Bucket.split, List.length_drop]

/-- C6: after a successful insert every bucket is within capacity; a split
happens exactly when the target bucket strictly exceeds the capacity after
adding (a bucket exactly at capacity is left alone), and the new bucket is
placed immediately after the split one. -/
theorem C6_capacity {cap : Nat} {sv sv' : SortedVec} {x : Int}
    (hR : Reachable cap sv) (h : sv.insert x = some sv') :
    (∀ b ∈ sv'.buckets, b.length ≤ cap) ∧
      (∀ b nd i, sv.buckets[sv.find_bucket_index x]? = some b →
        Bucket.add b x = (.added i, nd) →
        if cap < nd.length then
          sv'.buckets = (sv.buckets.set (sv.find_bucket_index x)
            (nd.take (nd.length / 2))).insertIdx (sv.find_bucket_index x + 1)
            (nd.drop (nd.length / 2))
        else sv'.buckets = sv.buckets.set (sv.find_bucket_index x) nd) := by
  obtain ⟨hI, hcap⟩ := reachable_inv hR
  constructor
  · rcases eq_or_ne sv.buckets [] with hnil | hnil
    · rw [insert_none_of_nil hnil] at h
      cases h
    · obtain ⟨sv'', h', hI', hcap', -, -, -⟩ := insert_spec hI hnil x
      rw [h] at h'
      injection h' with hEq
      subst hEq
      intro b hbm
      calc b.length ≤ sv'.maxCap := hI'.capBound b hbm
        _ = cap := by rw [hcap', hcap]
  · intro b nd i hb hadd
    simp only [SortedVec.insert, hb, hadd, Bucket.split] at h
    by_cases hc : nd.length > sv.maxCap
    · rw [if_pos hc] at h
      rw [if_pos (by omega : cap < nd.length)]
      injection h with hEq
      rw [← hEq]
    · rw [if_neg hc] at h
      rw [if_neg (by omega : ¬ cap < nd.length)]
      injection h with hEq
      rw [← hEq]

/-- Witness for C6: on `new 1; insert 5`, inserting 3 overflows the single
bucket and splits it. -/
theorem C6_capacity_witness :
    (∀ b ∈ (⟨[[3], [5]], 1, 2⟩ : SortedVec).buckets, b.length ≤ 1) ∧
      (∀ b nd i,
        (⟨[[5]], 1, 1⟩ : SortedVec).buckets[
          (⟨[[5]], 1, 1⟩ : SortedVec).find_bucket_index 3]? = some b →
        Bucket.add b 3 = (.added i, nd) →
        if 1 < nd.length then
          (⟨[[3], [5]], 1, 2⟩ : SortedVec).buckets =
            ((⟨[[5]], 1, 1⟩ : SortedVec).buckets.set
              ((⟨[[5]], 1, 1⟩ : SortedVec).find_bucket_index 3)
              (nd.take (nd.length / 2))).insertIdx
              ((⟨[[5]], 1, 1⟩ : SortedVec).find_bucket_index 3 + 1)
              (nd.drop (nd.length / 2))
        else (⟨[[3], [5]], 1, 2⟩ : SortedVec).buckets =
          (⟨[[5]], 1, 1⟩ : SortedVec).buckets.set
            ((⟨[[5]], 1, 1⟩ : SortedVec).find_bucket_index 3) nd) :=
  C6_capacity
    (@Reachable.insert 1 (SortedVec.new 1) ⟨[[5]], 1, 1⟩ 5
      (Reachable.init (by decide)) (by decide))
    (by decide)

/-- C7: inserting a value already present returns the container in exactly
its previous state: same buckets, same size, no split. -/
theorem C7_duplicate_noop {cap : Nat} {sv : SortedVec} {x : Int}
    (hR : Reachable cap sv) (hmem : x ∈ sv.buckets.flatten) :
    sv.insert x = some sv := by
  obtain ⟨hI, -⟩ := reachable_inv hR
  have hnil : sv.buckets ≠ [] := by
    intro hn
    rw [hn] at hmem
    simp at hmem
  obtain ⟨sv', h', -, -, -, -, hid⟩ := insert_spec hI hnil x
  rw [hid hmem] at h'
  exact h'

/-- Witness for C7: re-inserting 5 into `new 10; insert 5` is a no-op. -/
theorem C7_duplicate_noop_witness :
    SortedVec.insert ⟨[[5]], 10, 1⟩ 5 = some ⟨[[5]], 10, 1⟩ :=
  C7_duplicate_noop
    (@Reachable.insert 10 (SortedVec.new 10) ⟨[[5]], 10, 1⟩ 5
      (Reachable.init (by decide)) (by decide))
    (by decide)

/-- C8: for every stored value, `find_index` answers with bucket and item
indices, and `at` applied to the combined rank (sum of the lengths of the
earlier buckets plus the item index) returns the value. -/
theorem C8_roundtrip {cap : Nat} {sv : SortedVec} {x : Int}
    (hR : Reachable cap sv) (hmem : x ∈ sv.buckets.flatten) :
    ∃ b i, sv.find_index x = some (some (b, i)) ∧
      sv.atIdx (((sv.buckets.take b).map List.length).sum + i) = some x := by
  obtain ⟨hI, -⟩ := reachable_inv hR
  have hnil : sv.buckets ≠ [] := by
    intro hn
    rw [hn] at hmem
    simp at hmem
  have hne : ∀ b ∈ sv.buckets, b ≠ [] := by
    rcases hI.seed with hseed | hne'
    · exfalso
      rw [hseed] at hmem
      simp at hmem
    · exact hne'
  obtain ⟨hidx, hlow, hhigh, huniq⟩ := find_bucket_routes hI.sorted hI.ordered hne hnil
  obtain ⟨bk, hbk, hxk⟩ := List.mem_flatten.mp hmem
  obtain ⟨k, hk, hkEq⟩ := List.mem_iff_getElem.mp hbk
  have hik : sv.find_bucket_index x = k := huniq k hk (hkEq ▸ hxk)
  have hxo : x ∈ sv.buckets[sv.find_bucket_index x] := by
    subst hik
    exact hkEq ▸ hxk
  obtain ⟨p, hbsp, hp, hpx⟩ :=
    bs_ok_of_mem (hI.sorted _ (List.getElem_mem hidx)) hxo
  refine ⟨sv.find_bucket_index x, p, ?_, ?_⟩
  · simp only [SortedVec.find_index, List.getElem?_eq_getElem hidx, hbsp]
  · rw [atIdx_eq_flatten, flatten_getElem?_rank sv.buckets _ hidx p hp, hpx]

/-- Witness for C8: looking up 5 in the two-bucket state `[[3], [5]]`. -/
theorem C8_roundtrip_witness :
    ∃ b i, SortedVec.find_index ⟨[[3], [5]], 1, 2⟩ 5 = some (some (b, i)) ∧
      SortedVec.atIdx ⟨[[3], [5]], 1, 2⟩
        ((((⟨[[3], [5]], 1, 2⟩ : SortedVec).buckets.take b).map List.length).sum + i) =
        some 5 :=
  C8_roundtrip
    (@Reachable.insert 1 ⟨[[5]], 1, 1⟩ ⟨[[3], [5]], 1, 2⟩ 3
      (@Reachable.insert 1 (SortedVec.new 1) ⟨[[5]], 1, 1⟩ 5
        (Reachable.init (by decide)) (by decide))
      (by decide))
    (by decide)

/-- C9 (`first`/`last` modelled from the spec, which defines them as
equivalent to `at(0)` and `at(size - 1)`): the accessors agree with `at`, and
on the freshly constructed empty container `at 0`, `first`, `last` are absent
and iteration yields nothing. -/
theorem C9_first_last (sv : SortedVec) (cap : Nat) :
    sv.first = sv.atIdx 0 ∧ sv.last = sv.atIdx (sv.size - 1) ∧
      (SortedVec.new cap).atIdx 0 = none ∧ (SortedVec.new cap).first = none ∧
      (SortedVec.new cap).last = none ∧ (SortedVec.new cap).iterList = [] :=
  ⟨rfl, rfl, rfl, rfl, rfl, rfl⟩

/-- Folding `insert` over a value list from an invariant state with at least
one bucket succeeds and accumulates exactly the new values. -/
theorem foldl_insert_spec :
    ∀ (vs : List Int) {sv : SortedVec}, SVInv sv → sv.buckets ≠ [] →
      ∃ sv', List.foldlM (fun s v => SortedVec.insert s v) sv vs = some sv' ∧
        SVInv sv' ∧ sv'.buckets ≠ [] ∧
        (∀ y, y ∈ sv'.buckets.flatten ↔ y ∈ vs ∨ y ∈ sv.buckets.flatten)
  | [], sv, hI, hb => ⟨sv, rfl, hI, hb, by simp⟩
  | v :: tl, sv, hI, hb => by
    obtain ⟨sv1, h1, hI1, -, hb1, hm1, -⟩ := insert_spec hI hb v
    obtain ⟨sv', h', hI', hb', hm'⟩ := foldl_insert_spec tl hI1 hb1
    refine ⟨sv', ?_, hI', hb', ?_⟩
    · rw [List.foldlM_cons, h1]
      exact h'
    · intro y
      rw [hm' y, hm1 y, List.mem_cons]
      tauto

/-- C10: inserting any finite list of values into a fresh container succeeds
and iteration yields exactly the distinct inserted values in strictly
increasing order; the result is independent of the insertion order. -/
theorem C10_insert_only {cap : Nat} (hc : 1 ≤ cap) (vs : List Int) :
    ∃ sv, SortedVec.insertAll cap vs = some sv ∧
      sv.iterList.Sorted (· < ·) ∧ (∀ y, y ∈ sv.iterList ↔ y ∈ vs) ∧
      ∀ (vs' : List Int) (sv' : SortedVec), (∀ y, y ∈ vs' ↔ y ∈ vs) →
        SortedVec.insertAll cap vs' = some sv' → sv'.iterList = sv.iterList := by
  have hbnew : (SortedVec.new cap).buckets ≠ [] := by simp [SortedVec.new]
  obtain ⟨sv, h, hI, hb, hm⟩ := foldl_insert_spec vs (inv_new hc) hbnew
  have hmsv : ∀ y, y ∈ sv.buckets.flatten ↔ y ∈ vs := by
    intro y
    rw [hm y]
    simp [SortedVec.new]
  refine ⟨sv, h, ?_, ?_, ?_⟩
  · rw [iterList_eq hI]
    exact flatten_sorted hI.sorted hI.ordered
  · intro y
    rw [iterList_eq hI]
    exact hmsv y
  · intro vs' sv' hvs hall
    obtain ⟨sv'', h'', hI'', hb'', hm''⟩ := foldl_insert_spec vs' (inv_new hc) hbnew
    rw [SortedVec.insertAll] at hall
    rw [hall] at h''
    injection h'' with hEq
    subst hEq
    have hms' : ∀ y, y ∈ sv'.buckets.flatten ↔ y ∈ vs := by
      intro y
      rw [hm'' y, hvs y]
      simp [SortedVec.new]
    rw [iterList_eq hI'', iterList_eq hI]
    have hs1 : sv'.buckets.flatten.Sorted (· < ·) :=
      flatten_sorted hI''.sorted hI''.ordered
    have hs2 : sv.buckets.flatten.Sorted (· < ·) :=
      flatten_sorted hI.sorted hI.ordered
    refine List.eq_of_perm_of_sorted ?_ (List.Pairwise.imp le_of_lt hs1)
      (List.Pairwise.imp le_of_lt hs2)
    refine (List.perm_ext_iff_of_nodup hs1.nodup hs2.nodup).mpr ?_
    intro a
    rw [hms' a, hmsv a]

/-- Witness for C10 at `cap = 1`, values `[2, 1, 2]`. -/
theorem C10_insert_only_witness :
    1 ≤ 1 ∧
      ∃ sv, SortedVec.insertAll 1 [2, 1, 2] = some sv ∧
        sv.iterList.Sorted (· < ·) ∧ (∀ y, y ∈ sv.iterList ↔ y ∈ [2, 1, 2]) ∧
        ∀ (vs' : List Int) (sv' : SortedVec), (∀ y, y ∈ vs' ↔ y ∈ [2, 1, 2]) →
          SortedVec.insertAll 1 vs' = some sv' → sv'.iterList = sv.iterList :=
  ⟨by decide, C10_insert_only (by decide) [2, 1, 2]⟩
